import Mathlib

/-!
Verification of the fenced-code Markdown preprocessor
(`zerver/lib/bugdown/fenced_code.py`).

The Python module recognises fenced code regions in a document with two
regular expressions and an iterative scan/replace loop:

  FENCE_RE        = ^(~{3,}|X{3,})[ ]*(\x7b?\.?(lang)\x7d?)$          (X = backtick)
  FENCED_BLOCK_RE = ^(~{3,}|X{3,})[ ]*(\x7b?\.?(lang)\x7d?)?[ ]*\n
                       (code lazy .*?) (lookbehind \n) (backref fence) [ ]*$

both compiled with MULTILINE and DOTALL.  The shallow embedding below
hand-compiles these patterns into executable recursions over `List Char`,
mirroring the backtracking semantics of the Python `re` engine:

* `^` (multiline) is modelled by an explicit "at line start" flag threaded
  through the position-by-position search, exactly as `re.search` tries
  every position and `^` succeeds at offset 0 or right after a newline;
* the greedy pieces (`~{3,}`, `[ ]*`, `[a-zA-Z0-9_+-]*`) are modelled by
  maximal munch, which is equivalent here because a character given back by
  backtracking could not be consumed by any later piece of the pattern;
* the lazy body `.*?` with the `(?<=\n)` lookbehind and the `(?P=fence)`
  back-reference is modelled by a left-to-right scan that tries the closing
  fence at each position whose predecessor is a newline and otherwise moves
  the character into the body.

The stateful parts (`htmlStash.store`, the optional CodeHilite collaborator)
are external to the repository; they are parameters of the embedding
(`FenceCtx`), with a concrete modelled instantiation for evaluating the
concrete scenarios.  The unbounded `while 1` loop of `run` is modelled with
explicit fuel; `run` supplies `text.length + 1`, which dominates the number
of fenced regions a document can contain.
-/

/-- The backtick character (avoiding the literal in source text). -/
def btick : Char := Char.ofNat 96

/-- Fence marker characters: tilde or backtick (`~{3,}|X{3,}`). -/
def isFenceChar (c : Char) : Bool := decide (c = '~' ∨ c = btick)

/-- Characters allowed in a language tag: `[a-zA-Z0-9_+-]`. -/
def isLangChar (c : Char) : Bool :=
  c.isAlpha || c.isDigit || decide (c = '_' ∨ c = '+' ∨ c = '-')

/-- `[ ]*`: drop a maximal run of spaces. -/
def dropSpaces (s : List Char) : List Char := s.dropWhile (fun x => x == ' ')

/-- Embeds the opening-line part of `FENCED_BLOCK_RE`:
`(?P<fence>^(?:~{3,}|X{3,}))[ ]*(\x7b?\.?(?P<lang>[a-zA-Z0-9_+-]*)\x7d?)?[ ]*\n`.
Given the text from a line start, returns the fence marker run, the language
tag and the remaining text after the opening line's newline. -/
def matchOpenAt (s : List Char) : Option (List Char × List Char × List Char) :=
  match s with
  | [] => none
  | c :: _ =>
    if isFenceChar c then
      let fence := s.takeWhile (fun x => x == c)
      if 3 ≤ fence.length then
        let r1 := dropSpaces (s.dropWhile (fun x => x == c))
        let r2 := if r1.head? = some '\x7b' then r1.tail else r1
        let r3 := if r2.head? = some '.' then r2.tail else r2
        let lang := r3.takeWhile isLangChar
        let r4 := r3.dropWhile isLangChar
        let r5 := if r4.head? = some '\x7d' then r4.tail else r4
        match dropSpaces r5 with
        | '\n' :: rest => some (fence, lang, rest)
        | _ => none
      else none
    else none

/-- Embeds the closing part `(?P=fence)[ ]*$` of `FENCED_BLOCK_RE`, to be
tried at a position whose predecessor is a newline.  On success returns the
text after the match end (`$` is zero-width, so a following newline is not
consumed). -/
def closeHereOK (fence s : List Char) : Option (List Char) :=
  if fence.isPrefixOf s then
    match dropSpaces (s.drop fence.length) with
    | [] => some []
    | '\n' :: r => some ('\n' :: r)
    | _ => none
  else none

/-- Embeds the lazy body `(?P<code>.*?)(?<=\n)` followed by the close:
scan left to right, trying the closing fence at every position whose
predecessor is a newline (`atLS`), otherwise moving the character into the
body.  Returns `(code, post)` for the shortest body. -/
def findCloseAux (fence : List Char) : List Char → Bool → Option (List Char × List Char)
  | [], false => none
  | [], true =>
    match closeHereOK fence [] with
    | some post => some ([], post)
    | none => none
  | c :: rest, false =>
    (findCloseAux fence rest (decide (c = '\n'))).map (fun r => (c :: r.1, r.2))
  | c :: rest, true =>
    match closeHereOK fence (c :: rest) with
    | some post => some ([], post)
    | none =>
      (findCloseAux fence rest (decide (c = '\n'))).map (fun r => (c :: r.1, r.2))

/-- A match of `FENCED_BLOCK_RE`: `pre` is `text[:m.start()]`, `post` is
`text[m.end():]`, and `fence`, `lang`, `code` are the named groups. -/
structure FBMatch where
  pre   : List Char
  fence : List Char
  lang  : List Char
  code  : List Char
  post  : List Char
deriving Repr, DecidableEq

/-- Prepend a character to the `pre` component of a match (the search moved
one position right, so the skipped character lands in `text[:m.start()]`). -/
def consPre (c : Char) (m : FBMatch) : FBMatch := { m with pre := c :: m.pre }

/-- A full attempt of `FENCED_BLOCK_RE` at one position: the opening line,
then the lazy body and the closing fence. -/
def matchBlockAt (s : List Char) : Option FBMatch :=
  match matchOpenAt s with
  | some (f, l, rest) =>
    match findCloseAux f rest true with
    | some (code, post) => some (FBMatch.mk [] f l code post)
    | none => none
  | none => none

/-- Embeds `re.search` for `FENCED_BLOCK_RE`: try each position from the
left; `^` restricts real attempts to positions at the start of the text or
right after a newline (tracked by `atLS`). -/
def searchAux : List Char → Bool → Option FBMatch
  | [], false => none
  | [], true =>
    match matchBlockAt [] with
    | some m => some m
    | none => none
  | c :: rest, false => (searchAux rest (decide (c = '\n'))).map (consPre c)
  | c :: rest, true =>
    match matchBlockAt (c :: rest) with
    | some m => some m
    | none => (searchAux rest (decide (c = '\n'))).map (consPre c)

/-- `FENCED_BLOCK_RE.search(text)`. -/
def fencedBlockSearch (text : List Char) : Option FBMatch := searchAux text true

/-- Embeds `FENCE_RE` at a line start:
`(?P<fence>^(?:~{3,}|X{3,}))[ ]*(\x7b?\.?(?P<lang>[a-zA-Z0-9_+-]*)\x7d?)$`.
Unlike the opening line of `FENCED_BLOCK_RE` there is no `[ ]*` after the
tag group, and `$` (multiline) accepts end of text or a following newline. -/
def matchFenceReAt (s : List Char) : Option (List Char × List Char) :=
  match s with
  | [] => none
  | c :: _ =>
    if isFenceChar c then
      let fence := s.takeWhile (fun x => x == c)
      if 3 ≤ fence.length then
        let r1 := dropSpaces (s.dropWhile (fun x => x == c))
        let r2 := if r1.head? = some '\x7b' then r1.tail else r1
        let r3 := if r2.head? = some '.' then r2.tail else r2
        let r4 := r3.dropWhile isLangChar
        let lang := r3.takeWhile isLangChar
        let r5 := if r4.head? = some '\x7d' then r4.tail else r4
        match r5 with
        | [] => some (fence, lang)
        | '\n' :: _ => some (fence, lang)
        | _ => none
      else none
    else none

/-- Embeds `re.search` for `FENCE_RE` (only the groups are used by `run`). -/
def fenceReSearchAux : List Char → Bool → Option (List Char × List Char)
  | [], false => none
  | [], true =>
    match matchFenceReAt [] with
    | some r => some r
    | none => none
  | c :: rest, false => fenceReSearchAux rest (decide (c = '\n'))
  | c :: rest, true =>
    match matchFenceReAt (c :: rest) with
    | some r => some r
    | none => fenceReSearchAux rest (decide (c = '\n'))

/-- `FENCE_RE.search(text)`. -/
def fenceReSearch (text : List Char) : Option (List Char × List Char) :=
  fenceReSearchAux text true

/-- Python `str.replace(c, r)` for a single-character needle. -/
def pyReplaceChar (c : Char) (r : List Char) : List Char → List Char
  | [] => []
  | x :: xs => (if x = c then r else [x]) ++ pyReplaceChar c r xs

/-- Embeds `FencedBlockPreprocessor._escape`: four sequential `replace`
calls, ampersand first. -/
def escapeHtml (txt : List Char) : List Char :=
  pyReplaceChar '"' ("&quot;".toList)
    (pyReplaceChar '>' ("&gt;".toList)
      (pyReplaceChar '<' ("&lt;".toList)
        (pyReplaceChar '&' ("&amp;".toList) txt)))

/-- Single-character escaping table, the specification-side comparator for
`escapeHtml`: each of the four special characters is rewritten once. -/
def escChar (c : Char) : List Char :=
  if c = '&' then "&amp;".toList
  else if c = '<' then "&lt;".toList
  else if c = '>' then "&gt;".toList
  else if c = '"' then "&quot;".toList
  else [c]

/-- One simultaneous escaping pass over the text (specification-side:
"each such character escaped exactly once, no double-escaping"). -/
def escapeOncePass : List Char → List Char
  | [] => []
  | c :: cs => escChar c ++ escapeOncePass cs

/-- `LANG_TAG = ' class="%s"'` applied to a language tag. -/
def langTagAttr (lang : List Char) : List Char :=
  " class=\"".toList ++ lang ++ ['"']

/-- `CODE_WRAP = '<pre><code%s>%s</code></pre>'` applied to a class
attribute and a body. -/
def codeWrap (langclass body : List Char) : List Char :=
  "<pre><code".toList ++ langclass ++ ['>'] ++ body ++ "</code></pre>".toList

/-- Python `sep.join(xs)`. -/
def pyJoin (sep : List Char) : List (List Char) → List Char
  | [] => []
  | [x] => x
  | x :: y :: t => x ++ sep ++ pyJoin sep (y :: t)

/-- Python `str.split(c)` for a one-character separator. -/
def pySplitChar (c : Char) : List Char → List (List Char)
  | [] => [[]]
  | x :: xs =>
    if x = c then [] :: pySplitChar c xs
    else
      match pySplitChar c xs with
      | h :: t => (x :: h) :: t
      | [] => [[x]]

/-- Python `str.split("\n\n")`: non-overlapping, leftmost-first. -/
def pySplitDoubleNL : List Char → List (List Char)
  | '\n' :: '\n' :: rest => [] :: pySplitDoubleNL rest
  | c :: rest =>
    match pySplitDoubleNL rest with
    | h :: t => (c :: h) :: t
    | [] => [[c]]
  | [] => [[]]

/-- Embeds `FencedBlockPreprocessor.format_quote`: split into paragraphs on
blank lines, drop empty lines, put `"> "` in front of every remaining line,
rejoin paragraphs with a blank line. -/
def format_quote (text : List Char) : List Char :=
  pyJoin ('\n' :: '\n' :: [])
    ((pySplitDoubleNL text).map (fun paragraph =>
      pyJoin ['\n']
        (((pySplitChar '\n' paragraph).filter (fun l => l ≠ [])).map
          (fun line => '>' :: ' ' :: line))))

/-- External collaborators of the preprocessor.
`tok` models `htmlStash.store` (the placeholder for the n-th stored chunk);
`hilite` models the CodeHilite collaborator: `none` is the "no highlighter
configured" case (`codehilite_conf` empty), `some h` delegates to it. -/
structure FenceCtx where
  tok : Nat → List Char
  hilite : Option (List Char → List Char → List Char)

/-- Embeds `FencedBlockPreprocessor.format_code` (given `langclass`, the
language tag and the body): delegate to the highlighter when configured,
otherwise HTML-escape and wrap. -/
def format_code (hilite : Option (List Char → List Char → List Char))
    (langclass lang text : List Char) : List Char :=
  match hilite with
  | some h => h lang text
  | none => codeWrap langclass (escapeHtml text)

/-- Embeds `FencedBlockPreprocessor.format_fence` together with the stash:
quote-tagged regions return their markup directly (stash untouched); all
other regions render through `format_code` and return the placeholder of
the newly stored chunk. -/
def format_fence (ctx : FenceCtx) (st : List (List Char)) (lang code : List Char) :
    List Char × List (List Char) :=
  if lang ≠ [] ∧ (lang = "quote".toList ∨ lang = "quoted".toList) then
    (format_quote code, st)
  else
    let langclass := if lang = [] then [] else langTagAttr lang
    let rendered := format_code ctx.hilite langclass lang code
    (ctx.tok st.length, st ++ [rendered])

/-- Embeds `FencedBlockPreprocessor.process_fence`:
`'%s\n%s\n%s' % (text[:m.start()], fence_text, text[m.end():])`. -/
def process_fence (ctx : FenceCtx) (st : List (List Char)) (m : FBMatch) :
    List Char × List (List Char) :=
  let ft := format_fence ctx st m.lang m.code
  (m.pre ++ '\n' :: (ft.1 ++ '\n' :: m.post), ft.2)

/-- The `while 1` scan loop of `run`, with explicit fuel. -/
def processLoop (ctx : FenceCtx) : Nat → List Char → List (List Char) →
    List Char × List (List Char)
  | 0, text, st => (text, st)
  | Nat.succ fuel, text, st =>
    match fencedBlockSearch text with
    | none => (text, st)
    | some m =>
      let r := process_fence ctx st m
      processLoop ctx fuel r.1 r.2

/-- `text[-2:] == '\n\n'`. -/
def endsWithBlankPair (t : List Char) : Bool :=
  decide (t.drop (t.length - 2) = ['\n', '\n'])

/-- The repair step of `run` for a dangling opening fence: insert the
synthesized closing fence before a trailing blank-line pair if present,
else append it to the very end, then exactly one more match/replace pass. -/
def repairText (ctx : FenceCtx) (st : List (List Char)) (text : List Char) :
    List Char × List (List Char) :=
  match fenceReSearch text with
  | none => (text, st)
  | some f =>
    let t2 := if endsWithBlankPair text
              then text.take (text.length - 2) ++ '\n' :: (f.1 ++ ['\n', '\n'])
              else text ++ f.1
    match fencedBlockSearch t2 with
    | none => (t2, st)
    | some m => process_fence ctx st m

/-- The text-level body of `FencedBlockPreprocessor.run`: the scan loop,
then the repair step. -/
def runText (ctx : FenceCtx) (fuel : Nat) (text : List Char) :
    List Char × List (List Char) :=
  let r1 := processLoop ctx fuel text []
  repairText ctx r1.2 r1.1

/-- Embeds `FencedBlockPreprocessor.run`: join the lines, process, split.
The second component is the stash contents (the rendered chunks stored by
`htmlStash.store`, in order). -/
def run (ctx : FenceCtx) (lines : List (List Char)) :
    List (List Char) × List (List Char) :=
  let text := pyJoin ['\n'] lines
  let r := runText ctx (text.length + 1) text
  (pySplitChar '\n' r.1, r.2)

/-- Modelled from the spec: the placeholder token produced by the external
stash collaborator (`markdown.htmlStash.store`, not part of this
repository) — an opaque token, unique per stored index, guaranteed not to
interfere with later rendering passes.  Used to instantiate `FenceCtx` when
evaluating concrete scenarios. -/
def stashTok (n : Nat) : List Char :=
  '\x02' :: ("wzxhzdk:".toList ++ Nat.toDigits 10 n ++ ['\x03'])

/-- The default collaborator instantiation for concrete scenarios: the
modelled stash placeholder and no configured highlighter. -/
def defaultCtx : FenceCtx := ⟨stashTok, none⟩

/-! ### Lemmas about the escaping helper -/

lemma pyReplaceChar_append (c : Char) (r a b : List Char) :
    pyReplaceChar c r (a ++ b) = pyReplaceChar c r a ++ pyReplaceChar c r b := by
  induction a with
  | nil => rfl
  | cons x xs ih => simp [pyReplaceChar, ih]

lemma escapeHtml_append (a b : List Char) :
    escapeHtml (a ++ b) = escapeHtml a ++ escapeHtml b := by
  simp [escapeHtml, pyReplaceChar_append]

lemma escapeHtml_single (x : Char) : escapeHtml [x] = escChar x := by
  by_cases h1 : x = '&'
  · subst h1; decide
  by_cases h2 : x = '<'
  · subst h2; decide
  by_cases h3 : x = '>'
  · subst h3; decide
  by_cases h4 : x = '"'
  · subst h4; decide
  simp [escapeHtml, pyReplaceChar, escChar, h1, h2, h3, h4]

/-- The four sequential `replace` calls of `_escape` amount to a single
simultaneous pass: each special character of the input is escaped exactly
once, and no replacement output is escaped again. -/
lemma escapeHtml_eq_oncePass (s : List Char) : escapeHtml s = escapeOncePass s := by
  induction s with
  | nil => rfl
  | cons x xs ih =>
    have hx : x :: xs = [x] ++ xs := rfl
    rw [hx, escapeHtml_append, escapeHtml_single, ih]
    rfl

/-! ### Lemmas about the Python split/join helpers -/

lemma pySplitChar_ne_nil (c : Char) (s : List Char) : pySplitChar c s ≠ [] := by
  induction s with
  | nil => simp [pySplitChar]
  | cons x xs ih =>
    by_cases h : x = c
    · simp [pySplitChar, h]
    · cases hx : pySplitChar c xs with
      | nil => exact absurd hx ih
      | cons hd tl => simp [pySplitChar, h, hx]

lemma pySplitChar_not_mem (c : Char) (s : List Char) :
    ∀ l ∈ pySplitChar c s, c ∉ l := by
  induction s with
  | nil =>
    intro l hl
    simp [pySplitChar] at hl
    simp [hl]
  | cons x xs ih =>
    intro l hl
    by_cases h : x = c
    · simp only [pySplitChar, if_pos h] at hl
      rcases List.mem_cons.mp hl with h' | h'
      · simp [h']
      · exact ih l h'
    · cases hx : pySplitChar c xs with
      | nil => exact absurd hx (pySplitChar_ne_nil c xs)
      | cons hd tl =>
        simp only [pySplitChar, if_neg h, hx] at hl
        rcases List.mem_cons.mp hl with h' | h'
        · subst h'
          intro hc
          rcases List.mem_cons.mp hc with h'' | h''
          · exact h h''.symm
          · exact ih hd (by simp [hx]) h''
        · exact ih l (by simp [hx, h'])

lemma pySplitChar_no_sep (c : Char) (s : List Char) (h : c ∉ s) :
    pySplitChar c s = [s] := by
  induction s with
  | nil => rfl
  | cons x xs ih =>
    have hx : ¬ x = c := fun hc => h (by simp [hc])
    have hih := ih (fun hc => h (List.mem_cons_of_mem _ hc))
    simp [pySplitChar, hx, hih]

lemma pySplitChar_append_sep (c : Char) (a b : List Char) :
    pySplitChar c (a ++ c :: b) = pySplitChar c a ++ pySplitChar c b := by
  induction a with
  | nil => simp [pySplitChar]
  | cons x a' ih =>
    by_cases h : x = c
    · simp [pySplitChar, h, ih]
    · obtain ⟨hd, tl, hx⟩ : ∃ hd tl, pySplitChar c a' = hd :: tl := by
        cases hx' : pySplitChar c a' with
        | nil => exact absurd hx' (pySplitChar_ne_nil c a')
        | cons hd tl => exact ⟨hd, tl, rfl⟩
      simp [pySplitChar, h, ih, hx]

lemma pySplitChar_pyJoin (c : Char) (L : List (List Char)) (hL : L ≠ [])
    (h : ∀ l ∈ L, c ∉ l) : pySplitChar c (pyJoin [c] L) = L := by
  induction L with
  | nil => exact absurd rfl hL
  | cons x t ih =>
    cases t with
    | nil => exact pySplitChar_no_sep c x (h x (by simp))
    | cons y t' =>
      have hx : pyJoin [c] (x :: y :: t') = x ++ c :: pyJoin [c] (y :: t') := by
        simp [pyJoin]
      rw [hx, pySplitChar_append_sep, pySplitChar_no_sep c x (h x (by simp)),
        ih (by simp) (fun l hl => h l (List.mem_cons_of_mem _ hl))]
      rfl

/-! ### The scan loop exits immediately when no region matches -/

lemma processLoop_none (ctx : FenceCtx) (fuel : Nat) (text : List Char)
    (st : List (List Char)) (h : fencedBlockSearch text = none) :
    processLoop ctx fuel text st = (text, st) := by
  cases fuel with
  | zero => rfl
  | succ n => simp [processLoop, h]

/-! ### Well-formed fence markers and the opening-line matcher -/

/-- A fence marker as produced by the patterns: a run of at least three
identical tildes or backticks. -/
def WfFence (f : List Char) : Prop :=
  ∃ c n, isFenceChar c = true ∧ 3 ≤ n ∧ f = List.replicate n c

lemma fenceChar_ne_nl {c : Char} (hc : isFenceChar c = true) : ¬ '\n' = c := by
  have h := of_decide_eq_true hc
  rcases h with h | h <;> (subst h; decide)

lemma takeWhile_replicate_append (c : Char) (n : Nat) (r : List Char)
    (hr : ∀ x, r.head? = some x → ¬ x = c) :
    (List.replicate n c ++ r).takeWhile (fun x => x == c) = List.replicate n c := by
  induction n with
  | zero =>
    cases r with
    | nil => rfl
    | cons x xs =>
      have hx : ¬ x = c := hr x rfl
      simp [List.takeWhile_cons, hx]
  | succ n ih => simp [List.replicate_succ, List.takeWhile_cons, ih]

lemma dropWhile_replicate_append (c : Char) (n : Nat) (r : List Char)
    (hr : ∀ x, r.head? = some x → ¬ x = c) :
    (List.replicate n c ++ r).dropWhile (fun x => x == c) = r := by
  induction n with
  | zero =>
    cases r with
    | nil => rfl
    | cons x xs =>
      have hx : ¬ x = c := hr x rfl
      simp [List.dropWhile_cons, hx]
  | succ n ih => simp [List.replicate_succ, List.dropWhile_cons, ih]

lemma matchOpenAt_replicate {c : Char} (hc : isFenceChar c = true) {n : Nat}
    (h3 : 3 ≤ n) (body : List Char) :
    matchOpenAt (List.replicate n c ++ '\n' :: body) =
      some (List.replicate n c, [], body) := by
  have hr : ∀ x, ('\n' :: body).head? = some x → ¬ x = c := by
    intro x hx
    simp only [List.head?_cons, Option.some.injEq] at hx
    subst hx
    exact fenceChar_ne_nl hc
  obtain ⟨m, rfl⟩ : ∃ m, n = m + 3 := ⟨n - 3, by omega⟩
  have hcons : List.replicate (m + 3) c ++ '\n' :: body =
      c :: (List.replicate (m + 2) c ++ '\n' :: body) := by
    simp [List.replicate_succ]
  rw [hcons]
  simp only [matchOpenAt]
  rw [← hcons]
  rw [takeWhile_replicate_append c (m + 3) _ hr,
    dropWhile_replicate_append c (m + 3) _ hr]
  have hlen : 3 ≤ (List.replicate (m + 3) c).length := by
    simp [List.length_replicate]
  have e1 : ¬ ('\n' = '\x7b') := by decide
  have e2 : ¬ ('\n' = '.') := by decide
  have e3 : ¬ ('\n' = '\x7d') := by decide
  have e4 : isLangChar '\n' = false := by decide
  have e5 : ('\n' == ' ') = false := by decide
  simp [dropSpaces, List.dropWhile_cons, List.takeWhile_cons, hc, hlen, e1, e2, e3,
    e4, e5]

lemma matchFenceReAt_replicate {c : Char} (hc : isFenceChar c = true) {n : Nat}
    (h3 : 3 ≤ n) (body : List Char) :
    matchFenceReAt (List.replicate n c ++ '\n' :: body) =
      some (List.replicate n c, []) := by
  have hr : ∀ x, ('\n' :: body).head? = some x → ¬ x = c := by
    intro x hx
    simp only [List.head?_cons, Option.some.injEq] at hx
    subst hx
    exact fenceChar_ne_nl hc
  obtain ⟨m, rfl⟩ : ∃ m, n = m + 3 := ⟨n - 3, by omega⟩
  have hcons : List.replicate (m + 3) c ++ '\n' :: body =
      c :: (List.replicate (m + 2) c ++ '\n' :: body) := by
    simp [List.replicate_succ]
  rw [hcons]
  simp only [matchFenceReAt]
  rw [← hcons]
  rw [takeWhile_replicate_append c (m + 3) _ hr,
    dropWhile_replicate_append c (m + 3) _ hr]
  have hlen : 3 ≤ (List.replicate (m + 3) c).length := by
    simp [List.length_replicate]
  have e1 : ¬ ('\n' = '\x7b') := by decide
  have e2 : ¬ ('\n' = '.') := by decide
  have e3 : ¬ ('\n' = '\x7d') := by decide
  have e4 : isLangChar '\n' = false := by decide
  have e5 : ('\n' == ' ') = false := by decide
  simp [dropSpaces, List.dropWhile_cons, List.takeWhile_cons, hc, hlen, e1, e2, e3,
    e4, e5]

lemma matchOpenAt_nil : matchOpenAt [] = none := rfl

lemma matchOpenAt_cons_nonfence {x : Char} (hx : isFenceChar x = false)
    (t : List Char) : matchOpenAt (x :: t) = none := by
  simp [matchOpenAt, hx]

lemma matchFenceReAt_cons_nonfence {x : Char} (hx : isFenceChar x = false)
    (t : List Char) : matchFenceReAt (x :: t) = none := by
  simp [matchFenceReAt, hx]

lemma matchOpenAt_short {x : Char} (t : List Char) (hx : isFenceChar x = true)
    (hshort : ((x :: t).takeWhile (fun y => y == x)).length < 3) :
    matchOpenAt (x :: t) = none := by
  simp only [matchOpenAt]
  rw [if_pos hx, if_neg (by omega)]

lemma matchFenceReAt_short {x : Char} (t : List Char) (hx : isFenceChar x = true)
    (hshort : ((x :: t).takeWhile (fun y => y == x)).length < 3) :
    matchFenceReAt (x :: t) = none := by
  simp only [matchFenceReAt]
  rw [if_pos hx, if_neg (by omega)]

lemma ite_head_decomp (p : Char) (r : List Char) :
    ∃ ob, r = ob ++ (if r.head? = some p then r.tail else r) := by
  by_cases h : r.head? = some p
  · cases r with
    | nil => simp at h
    | cons a as => exact ⟨[a], by simp [h]⟩
  · exact ⟨[], by simp [h]⟩

/-- Soundness of the opening-line matcher: a successful match yields a
well-formed fence marker, a tag drawn from the tag character set, and a
decomposition of the text: marker, then the rest of the opening line, then
the newline, then the remaining text. -/
lemma matchOpenAt_sound {s f l rest : List Char}
    (h : matchOpenAt s = some (f, l, rest)) :
    WfFence f ∧ l.all isLangChar = true ∧ ∃ mid, s = f ++ mid ++ '\n' :: rest := by
  cases s with
  | nil => exact absurd h (by simp [matchOpenAt])
  | cons c t =>
    simp only [matchOpenAt] at h
    by_cases hc : isFenceChar c = true
    case neg => rw [if_neg hc] at h; exact absurd h (by simp)
    rw [if_pos hc] at h
    by_cases hlen : 3 ≤ ((c :: t).takeWhile (fun x => x == c)).length
    case neg => rw [if_neg hlen] at h; exact absurd h (by simp)
    rw [if_pos hlen] at h
    set f0 := (c :: t).takeWhile (fun x => x == c) with hf0
    set d := (c :: t).dropWhile (fun x => x == c) with hd
    set r1 := dropSpaces d with hr1
    set r2 := (if r1.head? = some '\x7b' then r1.tail else r1) with hr2
    set r3 := (if r2.head? = some '.' then r2.tail else r2) with hr3
    set lang0 := r3.takeWhile isLangChar with hlang0
    set r4 := r3.dropWhile isLangChar with hr4
    set r5 := (if r4.head? = some '\x7d' then r4.tail else r4) with hr5
    split at h
    case _ =>
      rename_i ys hm
      have hinj : f0 = f ∧ lang0 = l ∧ ys = rest := by
        simpa using h
      obtain ⟨rfl, rfl, rfl⟩ := hinj
      refine ⟨?_, ?_, ?_⟩
      · refine ⟨c, f0.length, hc, hlen, ?_⟩
        have hall : ∀ x ∈ f0, x = c := by
          intro x hx
          have := List.mem_takeWhile_imp hx
          simpa using this
        exact List.eq_replicate_iff.mpr ⟨rfl, hall⟩
      · rw [List.all_eq_true]
        intro x hx
        exact List.mem_takeWhile_imp hx
      · obtain ⟨ob, hob⟩ := ite_head_decomp '\x7b' r1
        obtain ⟨od, hod⟩ := ite_head_decomp '.' r2
        obtain ⟨cb, hcb⟩ := ite_head_decomp '\x7d' r4
        refine ⟨d.takeWhile (fun x => x == ' ') ++ ob ++ od ++ lang0 ++ cb ++
          r5.takeWhile (fun x => x == ' '), ?_⟩
        have h1 : c :: t = f0 ++ d :=
          (List.takeWhile_append_dropWhile (fun x => x == c) (c :: t)).symm
        have h2 : d = d.takeWhile (fun x => x == ' ') ++ r1 :=
          (List.takeWhile_append_dropWhile (fun x => x == ' ') d).symm
        have h3 : r3 = lang0 ++ r4 :=
          (List.takeWhile_append_dropWhile isLangChar r3).symm
        have h4 : r5 = r5.takeWhile (fun x => x == ' ') ++ '\n' :: ys := by
          conv_lhs => rw [(List.takeWhile_append_dropWhile (fun x => x == ' ') r5).symm]
          rw [show r5.dropWhile (fun x => x == ' ') = '\n' :: ys from hm]
        calc c :: t = f0 ++ d := h1
          _ = f0 ++ (d.takeWhile (fun x => x == ' ') ++ r1) := by rw [← h2]
          _ = f0 ++ (d.takeWhile (fun x => x == ' ') ++ (ob ++ r2)) := by rw [← hob]
          _ = f0 ++ (d.takeWhile (fun x => x == ' ') ++ (ob ++ (od ++ r3))) := by
              rw [← hod]
          _ = f0 ++ (d.takeWhile (fun x => x == ' ') ++ (ob ++ (od ++ (lang0 ++
              (cb ++ r5))))) := by rw [h3, hcb]
          _ = f0 ++ (d.takeWhile (fun x => x == ' ') ++ ob ++ od ++ lang0 ++ cb ++
              (r5.takeWhile (fun x => x == ' ') ++ '\n' :: ys)) := by
              rw [← h4]; simp [List.append_assoc]
          _ = f0 ++ (d.takeWhile (fun x => x == ' ') ++ ob ++ od ++ lang0 ++ cb ++
              r5.takeWhile (fun x => x == ' ')) ++ '\n' :: ys := by
              simp [List.append_assoc]
    case _ => exact absurd h (by simp)

/-! ### Lemmas about the closing-fence matcher -/

lemma wfFence_cons {g : List Char} (hg : WfFence g) :
    ∃ c m, isFenceChar c = true ∧ g = c :: List.replicate m c ∧ 2 ≤ m := by
  obtain ⟨c, n, hc, h3, rfl⟩ := hg
  refine ⟨c, n - 1, hc, ?_, by omega⟩
  rw [← List.replicate_succ]
  congr 1
  omega

lemma closeHereOK_nil {g : List Char} (hg : WfFence g) : closeHereOK g [] = none := by
  obtain ⟨c, m, hc, hgc, hm⟩ := wfFence_cons hg
  rw [hgc]
  simp [closeHereOK, List.isPrefixOf]

lemma closeHereOK_cons_nonfence {g : List Char} (hg : WfFence g) {x : Char}
    (hx : isFenceChar x = false) (t : List Char) : closeHereOK g (x :: t) = none := by
  obtain ⟨c, m, hc, hgc, hm⟩ := wfFence_cons hg
  have hcx : (c == x) = false := by
    rw [beq_eq_false_iff_ne]
    intro hcx
    subst hcx
    rw [hc] at hx
    exact Bool.noConfusion hx
  rw [hgc]
  simp [closeHereOK, List.isPrefixOf, hcx]

lemma closeHereOK_append {g : List Char} (t : List Char)
    (ht : t = [] ∨ ∃ r, t = '\n' :: r) : closeHereOK g (g ++ t) = some t := by
  have hpre : g.isPrefixOf (g ++ t) = true := by
    rw [List.isPrefixOf_iff_prefix]
    exact List.prefix_append g t
  simp only [closeHereOK, hpre, if_true, List.drop_left]
  rcases ht with rfl | ⟨r, rfl⟩
  · simp [dropSpaces]
  · have hnl : ('\n' == ' ') = false := by decide
    simp [dropSpaces, List.dropWhile_cons, hnl]

lemma closeHereOK_sound {g s post : List Char} (h : closeHereOK g s = some post) :
    ∃ sp, (∀ x ∈ sp, x = ' ') ∧ s = g ++ sp ++ post ∧
      (post = [] ∨ ∃ r, post = '\n' :: r) := by
  simp only [closeHereOK] at h
  by_cases hp : g.isPrefixOf s = true
  case neg => rw [if_neg hp] at h; exact absurd h (by simp)
  rw [if_pos hp] at h
  obtain ⟨u, hu⟩ := List.isPrefixOf_iff_prefix.mp hp
  subst hu
  rw [List.drop_left] at h
  have hdecomp : u = u.takeWhile (fun x => x == ' ') ++ dropSpaces u :=
    (List.takeWhile_append_dropWhile (fun x => x == ' ') u).symm
  have hspaces : ∀ x ∈ u.takeWhile (fun x => x == ' '), x = ' ' := by
    intro x hx
    have := List.mem_takeWhile_imp hx
    simpa using this
  split at h
  · rename_i hdu
    have hpost : post = [] := by simpa using h.symm
    subst hpost
    refine ⟨u, ?_, by simp, Or.inl rfl⟩
    intro x hx
    have hu2 : u.takeWhile (fun x => x == ' ') = u := by
      conv_rhs => rw [hdecomp]
      rw [show dropSpaces u = [] from hdu]
      simp
    rw [← hu2] at hx
    exact hspaces x hx
  · rename_i r hdu
    have hpost : post = '\n' :: r := by simpa using h.symm
    subst hpost
    refine ⟨u.takeWhile (fun x => x == ' '), hspaces, ?_, Or.inr ⟨r, rfl⟩⟩
    conv_lhs => rw [show (u : List Char) = u.takeWhile (fun x => x == ' ') ++
      dropSpaces u from hdecomp, hdu]
    simp
  · rename_i hne1 hne2
    exact absurd h (by simp)

lemma findCloseAux_eq (g s : List Char) (b : Bool) :
    findCloseAux g s b =
      match (if b then closeHereOK g s else none) with
      | some post => some ([], post)
      | none =>
        match s with
        | [] => none
        | c :: rest =>
          (findCloseAux g rest (decide (c = '\n'))).map (fun r => (c :: r.1, r.2)) := by
  cases s <;> cases b <;> simp [findCloseAux]

lemma findCloseAux_none_nonfence {g : List Char} (hg : WfFence g) :
    ∀ s : List Char, (∀ x ∈ s, isFenceChar x = false) → ∀ b,
      findCloseAux g s b = none := by
  intro s
  induction s with
  | nil =>
    intro _ b
    rw [findCloseAux_eq]
    cases b <;> simp [closeHereOK_nil hg]
  | cons c rest ih =>
    intro hmem b
    rw [findCloseAux_eq]
    have hc : isFenceChar c = false := hmem c (by simp)
    have hclose : closeHereOK g (c :: rest) = none :=
      closeHereOK_cons_nonfence hg hc rest
    have hrec : findCloseAux g rest (decide (c = '\n')) = none :=
      ih (fun x hx => hmem x (by simp [hx])) _
    cases b <;> simp [hclose, hrec]

lemma findCloseAux_none_noNL :
    ∀ t : List Char, '\n' ∉ t → ∀ g, findCloseAux g t false = none := by
  intro t
  induction t with
  | nil =>
    intro _ g
    rw [findCloseAux_eq]
    simp
  | cons c rest ih =>
    intro hmem g
    rw [findCloseAux_eq]
    have hc : ¬ (c = '\n') := fun hc => hmem (by simp [hc])
    have hdec : decide (c = '\n') = false := by simp [hc]
    simp only [Bool.false_eq_true, if_false]
    simp [hdec, ih (fun hx => hmem (by simp [hx])) g]

lemma findCloseAux_body_none {g : List Char} (hg : WfFence g) (tail : List Char)
    (htail : '\n' ∉ tail) :
    ∀ body : List Char, (∀ x ∈ body, isFenceChar x = false) → body ≠ [] →
      body.getLast? ≠ some '\n' → ∀ b, findCloseAux g (body ++ tail) b = none := by
  intro body
  induction body with
  | nil => intro _ hne _ _; exact absurd rfl hne
  | cons c rest ih =>
    intro hmem _ hlast b
    rw [findCloseAux_eq]
    have hc : isFenceChar c = false := hmem c (by simp)
    have hclose : closeHereOK g (c :: (rest ++ tail)) = none :=
      closeHereOK_cons_nonfence hg hc _
    have hrec : findCloseAux g (rest ++ tail) (decide (c = '\n')) = none := by
      cases hrest : rest with
      | nil =>
        have hcnl : ¬ (c = '\n') := by
          intro hcc
          apply hlast
          rw [hrest, hcc]
          rfl
        have hdec : decide (c = '\n') = false := by simp [hcnl]
        rw [hdec]
        simp only [List.nil_append]
        exact findCloseAux_none_noNL tail htail g
      | cons y ys =>
        rw [hrest] at ih hmem hlast
        apply ih (fun x hx => hmem x (List.mem_cons_of_mem c hx)) (by simp)
        rwa [List.getLast?_cons_cons] at hlast
    cases b <;> simp [hclose, hrec]

lemma findCloseAux_found {g : List Char} (hg : WfFence g) (t : List Char)
    (ht : t = [] ∨ ∃ r, t = '\n' :: r) :
    ∀ (body : List Char) (b : Bool), (∀ x ∈ body, isFenceChar x = false) →
      ((body = [] ∧ b = true) ∨ body.getLast? = some '\n') →
      findCloseAux g (body ++ g ++ t) b = some (body, t) := by
  intro body
  induction body with
  | nil =>
    intro b _ hb
    have hbt : b = true := by
      rcases hb with ⟨-, h⟩ | h
      · exact h
      · simp at h
    subst hbt
    rw [findCloseAux_eq]
    simp [closeHereOK_append t ht]
  | cons c rest ih =>
    intro b hmem hb
    have hlast : (c :: rest).getLast? = some '\n' := by
      rcases hb with ⟨h, -⟩ | h
      · exact absurd h (by simp)
      · exact h
    rw [findCloseAux_eq]
    have hc : isFenceChar c = false := hmem c (by simp)
    have hclose : closeHereOK g (c :: (rest ++ (g ++ t))) = none :=
      closeHereOK_cons_nonfence hg hc _
    have hrec : findCloseAux g (rest ++ g ++ t) (decide (c = '\n')) =
        some (rest, t) := by
      apply ih _ (fun x hx => hmem x (by simp [hx])) ?_
      cases hrest : rest with
      | nil =>
        left
        have hcnl : c = '\n' := by
          rw [hrest] at hlast
          simpa using hlast
        exact ⟨rfl, by simp [hcnl]⟩
      | cons y ys =>
        right
        rw [hrest] at hlast
        rw [List.getLast?_cons_cons] at hlast
        exact hlast
    have hrec2 : findCloseAux g (rest ++ (g ++ t)) (decide (c = '\n')) =
        some (rest, t) := by
      rw [← List.append_assoc]
      exact hrec
    cases b <;> simp [hclose, hrec2]

/-- Decomposition of a successful close search: the text scanned is exactly
the body, then the very fence marker that opened the region, then trailing
spaces, then the text after the match (empty or starting with a newline).
The region therefore closes only on the exact marker string of the opening
fence, with only trailing whitespace permitted on the closing line. -/
lemma findCloseAux_sound {g : List Char} :
    ∀ (s : List Char) (b : Bool) (code post : List Char),
      findCloseAux g s b = some (code, post) →
      ∃ sp, (∀ x ∈ sp, x = ' ') ∧ s = code ++ g ++ sp ++ post ∧
        (post = [] ∨ ∃ r, post = '\n' :: r) := by
  intro s
  induction s with
  | nil =>
    intro b code post h
    cases b with
    | false => exact absurd h (by simp [findCloseAux])
    | true =>
      rw [findCloseAux_eq] at h
      cases hC : closeHereOK g [] with
      | none => rw [hC] at h; exact absurd h (by simp)
      | some p =>
        rw [hC] at h
        have h2 : (some (([] : List Char), p) :
            Option (List Char × List Char)) = some (code, post) := h
        cases h2
        obtain ⟨sp, hsp, hdec, hshape⟩ := closeHereOK_sound hC
        exact ⟨sp, hsp, by simpa using hdec, hshape⟩
  | cons c rest ih =>
    intro b code post h
    rw [findCloseAux_eq] at h
    cases hgate : (if b then closeHereOK g (c :: rest) else none) with
    | some p =>
      rw [hgate] at h
      have hC : closeHereOK g (c :: rest) = some p := by
        cases b with
        | false => exact absurd hgate (by simp)
        | true => simpa using hgate
      have h2 : (some (([] : List Char), p) :
          Option (List Char × List Char)) = some (code, post) := h
      cases h2
      obtain ⟨sp, hsp, hdec, hshape⟩ := closeHereOK_sound hC
      exact ⟨sp, hsp, by simpa using hdec, hshape⟩
    | none =>
      rw [hgate] at h
      have h2 : (findCloseAux g rest (decide (c = '\n'))).map
          (fun r => (c :: r.1, r.2)) = some (code, post) := h
      cases hrec : findCloseAux g rest (decide (c = '\n')) with
      | none => rw [hrec] at h2; exact absurd h2 (by simp)
      | some pr =>
        obtain ⟨code', post'⟩ := pr
        rw [hrec] at h2
        have h3 : (some (c :: code', post') :
            Option (List Char × List Char)) = some (code, post) := h2
        cases h3
        obtain ⟨sp, hsp, hdec, hshape⟩ := ih _ _ _ hrec
        refine ⟨sp, hsp, ?_, hshape⟩
        rw [hdec]
        simp

lemma findCloseAux_false_code_ne_nil {g s code post : List Char}
    (h : findCloseAux g s false = some (code, post)) : code ≠ [] := by
  cases s with
  | nil => exact absurd h (by simp [findCloseAux])
  | cons c rest =>
    rw [findCloseAux_eq] at h
    have h2 : (findCloseAux g rest (decide (c = '\n'))).map
        (fun r => (c :: r.1, r.2)) = some (code, post) := h
    cases hrec : findCloseAux g rest (decide (c = '\n')) with
    | none => rw [hrec] at h2; exact absurd h2 (by simp)
    | some pr =>
      obtain ⟨code', post'⟩ := pr
      rw [hrec] at h2
      have h3 : (some (c :: code', post') :
          Option (List Char × List Char)) = some (code, post) := h2
      cases h3
      simp

/-- The body of a matched region is empty or ends with the newline that
immediately precedes the closing fence line. -/
lemma findCloseAux_code_last {g : List Char} :
    ∀ (s : List Char) (b : Bool) (code post : List Char),
      findCloseAux g s b = some (code, post) →
      code = [] ∨ code.getLast? = some '\n' := by
  intro s
  induction s with
  | nil =>
    intro b code post h
    cases b with
    | false => exact absurd h (by simp [findCloseAux])
    | true =>
      rw [findCloseAux_eq] at h
      cases hC : closeHereOK g [] with
      | none => rw [hC] at h; exact absurd h (by simp)
      | some p =>
        rw [hC] at h
        have h2 : (some (([] : List Char), p) :
            Option (List Char × List Char)) = some (code, post) := h
        cases h2
        exact Or.inl rfl
  | cons c rest ih =>
    intro b code post h
    rw [findCloseAux_eq] at h
    cases hgate : (if b then closeHereOK g (c :: rest) else none) with
    | some p =>
      rw [hgate] at h
      have h2 : (some (([] : List Char), p) :
          Option (List Char × List Char)) = some (code, post) := h
      cases h2
      exact Or.inl rfl
    | none =>
      rw [hgate] at h
      have h2 : (findCloseAux g rest (decide (c = '\n'))).map
          (fun r => (c :: r.1, r.2)) = some (code, post) := h
      cases hrec : findCloseAux g rest (decide (c = '\n')) with
      | none => rw [hrec] at h2; exact absurd h2 (by simp)
      | some pr =>
        obtain ⟨code', post'⟩ := pr
        rw [hrec] at h2
        have h3 : (some (c :: code', post') :
            Option (List Char × List Char)) = some (code, post) := h2
        cases h3
        rcases ih _ _ _ hrec with hnil | hlastnl
        · subst hnil
          by_cases hcn : c = '\n'
          · right
            rw [hcn]
            rfl
          · exfalso
            have hdec : decide (c = '\n') = false := by simp [hcn]
            rw [hdec] at hrec
            exact findCloseAux_false_code_ne_nil hrec rfl
        · right
          cases hcode' : code' with
          | nil => rw [hcode'] at hlastnl; exact absurd hlastnl (by simp)
          | cons y ys =>
            rw [hcode'] at hlastnl
            rw [List.getLast?_cons_cons]
            exact hlastnl

/-! ### Lemmas about the full searches -/

lemma matchBlockAt_some {s f l rest code post : List Char}
    (ho : matchOpenAt s = some (f, l, rest))
    (hc : findCloseAux f rest true = some (code, post)) :
    matchBlockAt s = some (FBMatch.mk [] f l code post) := by
  simp [matchBlockAt, ho, hc]

lemma matchBlockAt_none_open {s : List Char} (ho : matchOpenAt s = none) :
    matchBlockAt s = none := by
  simp [matchBlockAt, ho]

lemma matchBlockAt_none_close {s f l rest : List Char}
    (ho : matchOpenAt s = some (f, l, rest))
    (hc : findCloseAux f rest true = none) : matchBlockAt s = none := by
  simp [matchBlockAt, ho, hc]

lemma searchAux_nil (b : Bool) : searchAux [] b = none := by
  cases b <;> simp [searchAux, matchBlockAt, matchOpenAt]

lemma searchAux_cons_false (c : Char) (rest : List Char) :
    searchAux (c :: rest) false =
      (searchAux rest (decide (c = '\n'))).map (consPre c) := by
  simp [searchAux]

lemma searchAux_cons_true_found {c : Char} {rest : List Char} {m : FBMatch}
    (h : matchBlockAt (c :: rest) = some m) : searchAux (c :: rest) true = some m := by
  simp [searchAux, h]

lemma searchAux_cons_true_none {c : Char} {rest : List Char}
    (h : matchBlockAt (c :: rest) = none) :
    searchAux (c :: rest) true =
      (searchAux rest (decide (c = '\n'))).map (consPre c) := by
  simp [searchAux, h]

lemma searchAux_none_nonfence :
    ∀ s : List Char, (∀ x ∈ s, isFenceChar x = false) → ∀ b,
      searchAux s b = none := by
  intro s
  induction s with
  | nil => intro _ b; exact searchAux_nil b
  | cons c rest ih =>
    intro hmem b
    have hopen : matchBlockAt (c :: rest) = none :=
      matchBlockAt_none_open (matchOpenAt_cons_nonfence (hmem c (by simp)) rest)
    have hrec : searchAux rest (decide (c = '\n')) = none :=
      ih (fun x hx => hmem x (by simp [hx])) _
    cases b with
    | false => rw [searchAux_cons_false, hrec]; rfl
    | true => rw [searchAux_cons_true_none hopen, hrec]; rfl

lemma searchAux_none_noNL :
    ∀ t : List Char, '\n' ∉ t → searchAux t false = none := by
  intro t
  induction t with
  | nil => intro _; exact searchAux_nil false
  | cons c rest ih =>
    intro hmem
    have hc : ¬ (c = '\n') := fun hc => hmem (by simp [hc])
    have hdec : decide (c = '\n') = false := by simp [hc]
    rw [searchAux_cons_false, hdec, ih (fun hx => hmem (by simp [hx]))]
    rfl

lemma searchAux_none_append_noNL :
    ∀ p : List Char, '\n' ∉ p → ∀ q, searchAux q false = none →
      searchAux (p ++ q) false = none := by
  intro p
  induction p with
  | nil => intro _ q hq; simpa using hq
  | cons c p' ih =>
    intro hmem q hq
    have hc : ¬ (c = '\n') := fun hc => hmem (by simp [hc])
    have hdec : decide (c = '\n') = false := by simp [hc]
    rw [List.cons_append, searchAux_cons_false, hdec,
      ih (fun hx => hmem (by simp [hx])) q hq]
    rfl

lemma searchAux_newline_cons (q : List Char) :
    searchAux ('\n' :: q) false = (searchAux q true).map (consPre '\n') := by
  rw [searchAux_cons_false]
  norm_num

lemma searchAux_body_append :
    ∀ body : List Char, (∀ x ∈ body, isFenceChar x = false) →
      ∀ (q : List Char) (b : Bool), '\n' ∉ q → (body = [] → b = false) →
      (body ≠ [] → body.getLast? ≠ some '\n') →
      searchAux (body ++ q) b = none := by
  intro body
  induction body with
  | nil =>
    intro _ q b hq hb _
    rw [hb rfl]
    simpa using searchAux_none_noNL q hq
  | cons c rest ih =>
    intro hmem q b hq _ hlast
    have hcf : isFenceChar c = false := hmem c (by simp)
    have hlast' : (c :: rest).getLast? ≠ some '\n' := hlast (by simp)
    have hrec : searchAux (rest ++ q) (decide (c = '\n')) = none := by
      apply ih (fun x hx => hmem x (by simp [hx])) q _ hq
      · intro hrest
        subst hrest
        have hcn : ¬ (c = '\n') := by
          intro hcc
          apply hlast'
          rw [hcc]
          rfl
        simp [hcn]
      · intro hrest
        cases hr : rest with
        | nil => exact absurd hr hrest
        | cons y ys =>
          rw [hr] at hlast'
          rw [List.getLast?_cons_cons] at hlast'
          exact hlast'
    have hopen : matchBlockAt (c :: (rest ++ q)) = none :=
      matchBlockAt_none_open (matchOpenAt_cons_nonfence hcf _)
    cases b with
    | false =>
      rw [List.cons_append, searchAux_cons_false, hrec]
      rfl
    | true =>
      rw [List.cons_append, searchAux_cons_true_none hopen, hrec]
      rfl

lemma matchBlockAt_sound {s : List Char} {m : FBMatch} (h : matchBlockAt s = some m) :
    m.pre = [] ∧ ∃ rest', matchOpenAt s = some (m.fence, m.lang, rest') ∧
      findCloseAux m.fence rest' true = some (m.code, m.post) := by
  unfold matchBlockAt at h
  cases ho : matchOpenAt s with
  | none => rw [ho] at h; exact absurd h (by simp)
  | some tri =>
    obtain ⟨f, l, rest'⟩ := tri
    rw [ho] at h
    have h2 : (match findCloseAux f rest' true with
        | some (code, post) => some (FBMatch.mk [] f l code post)
        | none => none) = some m := h
    cases hc : findCloseAux f rest' true with
    | none => rw [hc] at h2; exact absurd h2 (by simp)
    | some pr =>
      obtain ⟨code, post⟩ := pr
      rw [hc] at h2
      have h3 : (some (FBMatch.mk [] f l code post) : Option FBMatch) = some m := h2
      cases h3
      refine ⟨rfl, rest', ?_, ?_⟩
      · simpa using ho
      · simpa using hc

/-- Search-level decomposition: any match of `FENCED_BLOCK_RE` splits the
text as: the text before the match, the opening fence marker, the rest of
the opening line, its newline, then the body, then the same marker,
trailing spaces, and the text after the match; the body is empty or ends
with the newline preceding the closing fence line. -/
lemma searchAux_sound :
    ∀ (s : List Char) (b : Bool) (m : FBMatch), searchAux s b = some m →
      ∃ mid sp, s = m.pre ++ m.fence ++ mid ++ '\n' ::
          (m.code ++ m.fence ++ sp ++ m.post) ∧
        (∀ x ∈ sp, x = ' ') ∧ (m.code = [] ∨ m.code.getLast? = some '\n') := by
  intro s
  induction s with
  | nil => intro b m h; exact absurd h (by rw [searchAux_nil b]; simp)
  | cons c rest ih =>
    intro b m h
    have hstep : ∀ m' : FBMatch, searchAux rest (decide (c = '\n')) = some m' →
        ∃ mid sp, c :: rest = (consPre c m').pre ++ m'.fence ++ mid ++ '\n' ::
            (m'.code ++ m'.fence ++ sp ++ m'.post) ∧
          (∀ x ∈ sp, x = ' ') ∧ (m'.code = [] ∨ m'.code.getLast? = some '\n') := by
      intro m' hm'
      obtain ⟨mid, sp, hdec, hsp, hcl⟩ := ih _ _ hm'
      exact ⟨mid, sp, by simp [consPre, hdec], hsp, hcl⟩
    cases b with
    | false =>
      rw [searchAux_cons_false] at h
      cases hrec : searchAux rest (decide (c = '\n')) with
      | none => rw [hrec] at h; exact absurd h (by simp)
      | some m' =>
        rw [hrec] at h
        have h2 : (some (consPre c m') : Option FBMatch) = some m := h
        cases h2
        obtain ⟨mid, sp, hdec, hsp, hcl⟩ := hstep m' hrec
        exact ⟨mid, sp, hdec, hsp, hcl⟩
    | true =>
      cases hB : matchBlockAt (c :: rest) with
      | some m0 =>
        rw [searchAux_cons_true_found hB] at h
        have h2 : (some m0 : Option FBMatch) = some m := h
        cases h2
        obtain ⟨hpre, rest', ho, hc⟩ := matchBlockAt_sound hB
        obtain ⟨-, -, mid, hdec⟩ := matchOpenAt_sound ho
        obtain ⟨sp, hsp, hdec2, -⟩ := findCloseAux_sound rest' true _ _ hc
        rcases findCloseAux_code_last rest' true _ _ hc with hcl | hcl
        all_goals {
          refine ⟨mid, sp, ?_, hsp, by tauto⟩
          rw [hpre, hdec, hdec2]
          simp
        }
      | none =>
        rw [searchAux_cons_true_none hB] at h
        cases hrec : searchAux rest (decide (c = '\n')) with
        | none => rw [hrec] at h; exact absurd h (by simp)
        | some m' =>
          rw [hrec] at h
          have h2 : (some (consPre c m') : Option FBMatch) = some m := h
          cases h2
          obtain ⟨mid, sp, hdec, hsp, hcl⟩ := hstep m' hrec
          exact ⟨mid, sp, hdec, hsp, hcl⟩

lemma fencedBlockSearch_fence_none {c : Char} (hc : isFenceChar c = true) {n : Nat}
    (h3 : 3 ≤ n) {body : List Char}
    (hclose : findCloseAux (List.replicate n c) body true = none)
    (hbody : searchAux body true = none) :
    fencedBlockSearch (List.replicate n c ++ '\n' :: body) = none := by
  obtain ⟨m, rfl⟩ : ∃ m, n = m + 3 := ⟨n - 3, by omega⟩
  have hcons : List.replicate (m + 3) c ++ '\n' :: body =
      c :: (List.replicate (m + 2) c ++ '\n' :: body) := by
    simp [List.replicate_succ]
  have hopen := matchOpenAt_replicate hc (by omega : 3 ≤ m + 3) body
  have hblock : matchBlockAt (c :: (List.replicate (m + 2) c ++ '\n' :: body)) =
      none := by
    rw [← hcons]
    exact matchBlockAt_none_close hopen hclose
  have hdecc : decide (c = '\n') = false := by
    have hne := fenceChar_ne_nl hc
    simp only [decide_eq_false_iff_not]
    intro hcc
    exact hne hcc.symm
  unfold fencedBlockSearch
  rw [hcons, searchAux_cons_true_none hblock, hdecc]
  have hskip : searchAux (List.replicate (m + 2) c ++ '\n' :: body) false = none := by
    apply searchAux_none_append_noNL
    · intro hmem
      exact fenceChar_ne_nl hc (List.eq_of_mem_replicate hmem)
    · rw [searchAux_newline_cons, hbody]
      rfl
  rw [hskip]
  rfl

lemma fencedBlockSearch_fence_found {c : Char} (hc : isFenceChar c = true) {n : Nat}
    (h3 : 3 ≤ n) {body code post : List Char}
    (hclose : findCloseAux (List.replicate n c) body true = some (code, post)) :
    fencedBlockSearch (List.replicate n c ++ '\n' :: body) =
      some (FBMatch.mk [] (List.replicate n c) [] code post) := by
  obtain ⟨m, rfl⟩ : ∃ m, n = m + 3 := ⟨n - 3, by omega⟩
  have hcons : List.replicate (m + 3) c ++ '\n' :: body =
      c :: (List.replicate (m + 2) c ++ '\n' :: body) := by
    simp [List.replicate_succ]
  unfold fencedBlockSearch
  rw [hcons]
  apply searchAux_cons_true_found
  rw [← hcons]
  exact matchBlockAt_some (matchOpenAt_replicate hc (by omega) body) hclose

lemma fenceReSearchAux_cons_true_found {c : Char} {rest : List Char}
    {r : List Char × List Char} (h : matchFenceReAt (c :: rest) = some r) :
    fenceReSearchAux (c :: rest) true = some r := by
  simp [fenceReSearchAux, h]

lemma fenceReSearch_fence {c : Char} (hc : isFenceChar c = true) {n : Nat}
    (h3 : 3 ≤ n) (body : List Char) :
    fenceReSearch (List.replicate n c ++ '\n' :: body) =
      some (List.replicate n c, []) := by
  obtain ⟨m, rfl⟩ : ∃ m, n = m + 3 := ⟨n - 3, by omega⟩
  have hcons : List.replicate (m + 3) c ++ '\n' :: body =
      c :: (List.replicate (m + 2) c ++ '\n' :: body) := by
    simp [List.replicate_succ]
  unfold fenceReSearch
  rw [hcons]
  apply fenceReSearchAux_cons_true_found
  rw [← hcons]
  exact matchFenceReAt_replicate hc (by omega) body

/-! ### The trailing blank-line pair test -/

lemma endsWithBlankPair_getLast {t : List Char} (h : endsWithBlankPair t = true) :
    t.getLast? = some '\n' := by
  unfold endsWithBlankPair at h
  have h2 : t.drop (t.length - 2) = ['\n', '\n'] := of_decide_eq_true h
  have ht : t = t.take (t.length - 2) ++ ['\n', '\n'] := by
    conv_lhs => rw [← List.take_append_drop (t.length - 2) t]
    rw [h2]
  rw [ht, show (['\n', '\n'] : List Char) = ['\n'] ++ ['\n'] from rfl,
    ← List.append_assoc]
  exact List.getLast?_concat _

lemma endsWithBlankPair_false_of_last {t : List Char} {x : Char} (hx : ¬ x = '\n')
    (h : t.getLast? = some x) : endsWithBlankPair t = false := by
  cases he : endsWithBlankPair t
  · rfl
  · exfalso
    have h2 := endsWithBlankPair_getLast he
    rw [h] at h2
    exact hx (by injection h2)

lemma endsWithBlankPair_append_pair (u : List Char) :
    endsWithBlankPair (u ++ ['\n', '\n']) = true := by
  unfold endsWithBlankPair
  have hl : (u ++ ['\n', '\n']).length - 2 = u.length := by simp
  rw [hl, List.drop_left]
  exact decide_eq_true rfl

lemma take_append_pair (u : List Char) :
    (u ++ ['\n', '\n']).take ((u ++ ['\n', '\n']).length - 2) = u := by
  have hl : (u ++ ['\n', '\n']).length - 2 = u.length := by simp
  rw [hl, List.take_left]

/-! ### Lemmas about the formatters and the repair step -/

lemma repairText_none (ctx : FenceCtx) (st : List (List Char)) (text : List Char)
    (h : fenceReSearch text = none) : repairText ctx st text = (text, st) := by
  simp [repairText, h]

lemma format_fence_quote (ctx : FenceCtx) (st : List (List Char)) (code : List Char) :
    format_fence ctx st ("quote".toList) code = (format_quote code, st) := by
  rfl

lemma format_fence_quoted (ctx : FenceCtx) (st : List (List Char)) (code : List Char) :
    format_fence ctx st ("quoted".toList) code = (format_quote code, st) := by
  rfl

lemma format_fence_not_quote {lang : List Char}
    (h : ¬ (lang = "quote".toList ∨ lang = "quoted".toList))
    (ctx : FenceCtx) (st : List (List Char)) (code : List Char) :
    format_fence ctx st lang code =
      (ctx.tok st.length, st ++ [format_code ctx.hilite
        (if lang = [] then [] else langTagAttr lang) lang code]) := by
  unfold format_fence
  rw [if_neg (fun hand => h hand.2)]

lemma pyJoin_double_mem {P : List Char → Prop} (hP : P []) :
    ∀ L : List (List Char), (∀ x ∈ L, ∀ l ∈ pySplitChar '\n' x, P l) →
      ∀ l ∈ pySplitChar '\n' (pyJoin ['\n', '\n'] L), P l := by
  intro L
  induction L with
  | nil =>
    intro _ l hl
    simp [pyJoin, pySplitChar] at hl
    rw [hl]
    exact hP
  | cons x t ih =>
    intro hmem l hl
    cases t with
    | nil => exact hmem x (by simp) l (by simpa [pyJoin] using hl)
    | cons y t' =>
      have hjoin : pyJoin ['\n', '\n'] (x :: y :: t') =
          x ++ '\n' :: ('\n' :: pyJoin ['\n', '\n'] (y :: t')) := by
        simp [pyJoin]
      rw [hjoin, pySplitChar_append_sep] at hl
      rcases List.mem_append.mp hl with h1 | h1
      · exact hmem x (by simp) l h1
      · have hsplit : pySplitChar '\n' ('\n' :: pyJoin ['\n', '\n'] (y :: t')) =
            [] :: pySplitChar '\n' (pyJoin ['\n', '\n'] (y :: t')) := by
          simp [pySplitChar]
        rw [hsplit] at h1
        rcases List.mem_cons.mp h1 with h2 | h2
        · rw [h2]; exact hP
        · exact ih (fun z hz => hmem z (by simp [hz])) l h2

lemma pyJoin_single_mem {P : List Char → Prop} (hP : P []) :
    ∀ L : List (List Char), (∀ x ∈ L, '\n' ∉ x ∧ P x) →
      ∀ l ∈ pySplitChar '\n' (pyJoin ['\n'] L), P l := by
  intro L
  induction L with
  | nil =>
    intro _ l hl
    simp [pyJoin, pySplitChar] at hl
    rw [hl]
    exact hP
  | cons x t ih =>
    intro hmem l hl
    cases t with
    | nil =>
      rw [show pyJoin ['\n'] [x] = x from rfl,
        pySplitChar_no_sep '\n' x (hmem x (by simp)).1] at hl
      rcases List.mem_singleton.mp hl with rfl
      exact (hmem l (by simp)).2
    | cons y t' =>
      have hjoin : pyJoin ['\n'] (x :: y :: t') =
          x ++ '\n' :: pyJoin ['\n'] (y :: t') := by
        simp [pyJoin]
      rw [hjoin, pySplitChar_append_sep] at hl
      rcases List.mem_append.mp hl with h1 | h1
      · rw [pySplitChar_no_sep '\n' x (hmem x (by simp)).1] at h1
        rcases List.mem_singleton.mp h1 with rfl
        exact (hmem l (by simp)).2
      · exact ih (fun z hz => hmem z (by simp [hz])) l h1

/-- Every line of the quote markup is empty or starts with `"> "`. -/
lemma format_quote_lines (t : List Char) :
    ∀ l ∈ pySplitChar '\n' (format_quote t), l = [] ∨ l.take 2 = ['>', ' '] := by
  intro l hl
  unfold format_quote at hl
  refine @pyJoin_double_mem (fun l => l = [] ∨ l.take 2 = ['>', ' '])
    (Or.inl rfl) _ ?_ l hl
  intro x hx l' hl'
  obtain ⟨para, -, hpara⟩ := List.mem_map.mp hx
  rw [← hpara] at hl'
  refine @pyJoin_single_mem (fun l => l = [] ∨ l.take 2 = ['>', ' '])
    (Or.inl rfl) _ ?_ l' hl'
  intro item hitem
  obtain ⟨line, hline, hlineEq⟩ := List.mem_map.mp hitem
  have hlineMem : line ∈ pySplitChar '\n' para := (List.mem_filter.mp hline).1
  constructor
  · rw [← hlineEq]
    intro hmem
    rcases List.mem_cons.mp hmem with h' | h'
    · exact absurd h' (by decide)
    · rcases List.mem_cons.mp h' with h'' | h''
      · exact absurd h'' (by decide)
      · exact pySplitChar_not_mem '\n' para line hlineMem h''
  · right
    rw [← hlineEq]
    rfl

/-! ### Short marker runs are never fences -/

lemma le_length_takeWhile_replicate_append (c : Char) :
    ∀ (n : Nat) (u : List Char),
      n ≤ ((List.replicate n c ++ u).takeWhile (fun y => y == c)).length := by
  intro n
  induction n with
  | zero => intro u; simp
  | succ m ih =>
    intro u
    have h := ih u
    simp only [List.replicate_succ, List.cons_append, List.takeWhile_cons]
    rw [if_pos (by simp)]
    simp only [List.length_cons]
    omega

lemma replicate_prefix_head {c₀ c : Char} {n : Nat} {t : List Char}
    (hn : 1 ≤ n) (hp : (List.replicate n c₀).isPrefixOf (c :: t) = true) :
    c₀ = c := by
  obtain ⟨u, hu⟩ := List.isPrefixOf_iff_prefix.mp hp
  obtain ⟨m, rfl⟩ : ∃ m, n = m + 1 := ⟨n - 1, by omega⟩
  rw [List.replicate_succ, List.cons_append] at hu
  have h1 := congrArg List.head? hu
  simpa using h1

/-- C8: an input line whose leading run of repeated tildes or backticks is
shorter than 3 characters is recognized neither as an opening fence (by
either pattern) nor as a closing fence for any well-formed fence marker. -/
theorem c8_short_runs_never_fence (s : List Char)
    (h1 : (s.takeWhile (fun y => y == '~')).length < 3)
    (h2 : (s.takeWhile (fun y => y == btick)).length < 3) :
    matchOpenAt s = none ∧ matchFenceReAt s = none ∧
      ∀ f, WfFence f → closeHereOK f s = none := by
  have hclose : ∀ f, WfFence f → closeHereOK f s = none := by
    intro f hf
    obtain ⟨c₀, n, hc₀, h3, rfl⟩ := hf
    cases hp : (List.replicate n c₀).isPrefixOf s with
    | false => simp [closeHereOK, hp]
    | true =>
      exfalso
      cases s with
      | nil =>
        obtain ⟨m, rfl⟩ : ∃ m, n = m + 1 := ⟨n - 1, by omega⟩
        rw [List.replicate_succ] at hp
        simp [List.isPrefixOf] at hp
      | cons c t =>
        have hceq : c₀ = c := replicate_prefix_head (by omega) hp
        subst hceq
        obtain ⟨u, hu⟩ := List.isPrefixOf_iff_prefix.mp hp
        have hlen := le_length_takeWhile_replicate_append c₀ n u
        rw [hu] at hlen
        rcases of_decide_eq_true hc₀ with hcc | hcc
        · subst hcc; omega
        · subst hcc; omega
  have hnonf : ∀ c : Char, ¬ (isFenceChar c = true) → isFenceChar c = false := by
    intro c hc
    revert hc
    cases isFenceChar c <;> simp
  refine ⟨?_, ?_, hclose⟩
  · cases s with
    | nil => rfl
    | cons c t =>
      by_cases hc : isFenceChar c = true
      · apply matchOpenAt_short t hc
        rcases of_decide_eq_true hc with hcc | hcc <;> subst hcc
        · exact h1
        · exact h2
      · exact matchOpenAt_cons_nonfence (hnonf c hc) t
  · cases s with
    | nil => rfl
    | cons c t =>
      by_cases hc : isFenceChar c = true
      · apply matchFenceReAt_short t hc
        rcases of_decide_eq_true hc with hcc | hcc <;> subst hcc
        · exact h1
        · exact h2
      · exact matchFenceReAt_cons_nonfence (hnonf c hc) t

/-- Witness for C8 at the concrete line `~~`. -/
theorem c8_witness :
    matchOpenAt ("~~".toList) = none ∧ matchFenceReAt ("~~".toList) = none ∧
      closeHereOK (List.replicate 3 '~') ("~~".toList) = none :=
  ⟨(c8_short_runs_never_fence ("~~".toList) (by decide) (by decide)).1,
   (c8_short_runs_never_fence ("~~".toList) (by decide) (by decide)).2.1,
   (c8_short_runs_never_fence ("~~".toList) (by decide) (by decide)).2.2
     (List.replicate 3 '~') ⟨'~', 3, by decide, by omega, rfl⟩⟩

/-- C7: when the text of the document (the lines joined by newlines)
contains no fenced region and no dangling fence line — as is the case for
the placeholder-only output of a successful run — `run` is a no-op: it
returns the lines unchanged and stores nothing. -/
theorem c7_second_pass_noop (ctx : FenceCtx) (lines : List (List Char))
    (h0 : lines ≠ []) (h1 : ∀ l ∈ lines, '\n' ∉ l)
    (h2 : fencedBlockSearch (pyJoin ['\n'] lines) = none)
    (h3 : fenceReSearch (pyJoin ['\n'] lines) = none) :
    run ctx lines = (lines, []) := by
  have hrt : runText ctx ((pyJoin ['\n'] lines).length + 1) (pyJoin ['\n'] lines) =
      (pyJoin ['\n'] lines, []) := by
    simp only [runText]
    rw [processLoop_none ctx _ _ _ h2]
    exact repairText_none ctx [] _ h3
  simp only [run]
  rw [hrt, pySplitChar_pyJoin '\n' lines h0 h1]

/-- Witness for C7: a placeholder-only document is returned unchanged. -/
theorem c7_witness : run defaultCtx [[], stashTok 0, []] = ([[], stashTok 0, []], []) :=
  c7_second_pass_noop defaultCtx [[], stashTok 0, []] (by decide) (by decide)
    (by decide) (by decide)

/-- C5: `_escape` equals one simultaneous escaping pass (ampersand first,
then `<`, `>`, `"`; each special character of the body escaped exactly
once, replacement text never re-escaped), and a region rendered without a
configured highlighter is wrapped as `<pre><code class="LANG">ESCAPED`
`</code></pre>`, with the tag placed verbatim in the class attribute and
the class attribute omitted entirely when the tag is empty. -/
theorem c5_escape_and_wrap :
    (∀ s : List Char, escapeHtml s = escapeOncePass s) ∧
    ∀ (tok : Nat → List Char) (st : List (List Char)) (lang code : List Char),
      ¬ (lang = "quote".toList ∨ lang = "quoted".toList) →
      format_fence ⟨tok, none⟩ st lang code =
        (tok st.length, st ++ [codeWrap
          (if lang = [] then [] else langTagAttr lang) (escapeOncePass code)]) := by
  refine ⟨escapeHtml_eq_oncePass, ?_⟩
  intro tok st lang code h
  rw [format_fence_not_quote h]
  simp [format_code, escapeHtml_eq_oncePass]

/-- Witness for C5 at a concrete tag and body. -/
theorem c5_witness :
    format_fence ⟨stashTok, none⟩ [] ("python".toList) ("a<b".toList) =
      (stashTok 0, [] ++ [codeWrap
        (if ("python".toList : List Char) = [] then []
         else langTagAttr ("python".toList)) (escapeOncePass ("a<b".toList))]) :=
  c5_escape_and_wrap.2 stashTok [] ("python".toList) ("a<b".toList) (by decide)

/-- C9: the `\x7b`, `.`, `\x7d` decoration characters of the language
annotation are each independently optional: partially decorated opening
lines are recognized with the same tag as the bare and fully decorated
forms. -/
theorem c9_decoration_independent :
    fencedBlockSearch ("~~~~\x7bpython\nx\n~~~~".toList) =
      some (FBMatch.mk [] ("~~~~".toList) ("python".toList) ("x\n".toList) []) ∧
    fencedBlockSearch ("~~~~.python\x7d\nx\n~~~~".toList) =
      some (FBMatch.mk [] ("~~~~".toList) ("python".toList) ("x\n".toList) []) ∧
    fencedBlockSearch ("~~~~\x7bpython\x7d\nx\n~~~~".toList) =
      some (FBMatch.mk [] ("~~~~".toList) ("python".toList) ("x\n".toList) []) ∧
    fencedBlockSearch ("~~~~\x7b.python\x7d\nx\n~~~~".toList) =
      some (FBMatch.mk [] ("~~~~".toList) ("python".toList) ("x\n".toList) []) ∧
    fencedBlockSearch ("~~~~python\nx\n~~~~".toList) =
      some (FBMatch.mk [] ("~~~~".toList) ("python".toList) ("x\n".toList) []) := by
  refine ⟨by decide, by decide, by decide, by decide, by decide⟩

/-- C1 counterexample: for the input `"~~~\nhello\n~~~"` the extracted body
is `"hello\n"` — it does include the terminating newline that immediately
precedes the close-fence line, contrary to the claim that it never does. -/
theorem c1_counterexample :
    (fencedBlockSearch ("~~~\nhello\n~~~".toList)).map FBMatch.code =
      some ("hello\n".toList) ∧
    ¬ ((fencedBlockSearch ("~~~\nhello\n~~~".toList)).map FBMatch.code =
      some ("hello".toList)) := by
  exact ⟨by decide, by decide⟩

/-- C1 (amended): for every complete fenced region, the text decomposes as
the prefix before the match, the opening marker, the rest of the opening
line, its newline, then the body, the same marker, trailing spaces and the
text after the match; the body is everything strictly between the newline
after the open line and the start of the close line, and it INCLUDES the
terminating newline immediately preceding the close-fence line (the body
is empty or ends with that newline). -/
theorem c1_body_extent (text : List Char) (m : FBMatch)
    (h : fencedBlockSearch text = some m) :
    ∃ mid sp, text = m.pre ++ m.fence ++ mid ++ '\n' ::
        (m.code ++ m.fence ++ sp ++ m.post) ∧
      (∀ x ∈ sp, x = ' ') ∧ (m.code = [] ∨ m.code.getLast? = some '\n') :=
  searchAux_sound text true m h

/-- The concrete match instantiating the witness of C1. -/
def c1Match : FBMatch :=
  FBMatch.mk [] ("~~~".toList) [] ("hello\n".toList) []

/-- Witness for C1 at the input `"~~~\nhello\n~~~"`. -/
theorem c1_witness :
    ∃ mid sp, "~~~\nhello\n~~~".toList = c1Match.pre ++ c1Match.fence ++ mid ++
        '\n' :: (c1Match.code ++ c1Match.fence ++ sp ++ c1Match.post) ∧
      (∀ x ∈ sp, x = ' ') ∧ (c1Match.code = [] ∨ c1Match.code.getLast? = some '\n') :=
  c1_body_extent ("~~~\nhello\n~~~".toList) c1Match (by decide)

/-- C2: a region is closed only by the exact marker string of its opening
fence (same character, same length) with only trailing whitespace
permitted: the scanned text decomposes as body, then that exact marker,
then spaces, then the rest; and in the concrete nested-marker example, the
inner shorter `~~~~` run inside an outer 8-tilde fence is preserved
verbatim in the body and in the rendered block. -/
theorem c2_exact_close_inner_preserved :
    (∀ (g s : List Char) (b : Bool) (code post : List Char),
       findCloseAux g s b = some (code, post) →
       ∃ sp, (∀ x ∈ sp, x = ' ') ∧ s = code ++ g ++ sp ++ post ∧
         (post = [] ∨ ∃ r, post = '\n' :: r)) ∧
    fencedBlockSearch ("~~~~~~~~\n\n~~~~\n~~~~~~~~".toList) =
      some (FBMatch.mk [] ("~~~~~~~~".toList) [] ("\n~~~~\n".toList) []) ∧
    run defaultCtx ["~~~~~~~~".toList, [], "~~~~".toList, "~~~~~~~~".toList] =
      ([[], stashTok 0, []], [codeWrap [] ("\n~~~~\n".toList)]) := by
  exact ⟨fun g s b code post h => findCloseAux_sound s b code post h,
    by decide, by decide⟩

/-- Witness for C2: the close search after the 8-tilde opening line. -/
theorem c2_witness :
    ∃ sp, (∀ x ∈ sp, x = ' ') ∧
      "\n~~~~\n~~~~~~~~".toList =
        "\n~~~~\n".toList ++ "~~~~~~~~".toList ++ sp ++ [] ∧
      (([] : List Char) = [] ∨ ∃ r, ([] : List Char) = '\n' :: r) :=
  c2_exact_close_inner_preserved.1 ("~~~~~~~~".toList)
    ("\n~~~~\n~~~~~~~~".toList) true ("\n~~~~\n".toList) [] (by decide)

/-- C4 counterexample: on the quote scenario input, `run` stores nothing,
but the output document is NOT the claimed string
`"> first line\n\n> second paragraph"`: the splice inserts a newline
before and after the quote markup. -/
theorem c4_counterexample :
    run defaultCtx ["~~~quote".toList, "first line".toList, [],
        "second paragraph".toList, "~~~".toList] =
      ([[], "> first line".toList, [], "> second paragraph".toList, []], []) ∧
    ¬ (pyJoin ['\n'] [[], "> first line".toList, [],
          "> second paragraph".toList, []] =
        "> first line\n\n> second paragraph".toList) := by
  exact ⟨by decide, by decide⟩

/-- C4 (amended): quote-tagged regions never touch the stash — their markup
is returned directly; every line of the quote markup is empty or starts
with `"> "`; the formatted markup for the concrete scenario is exactly
`"> first line\n\n> second paragraph"`; and the run output is that markup
spliced between the newlines that `process_fence` inserts, with an empty
stash. -/
theorem c4_quote_markup :
    (∀ (ctx : FenceCtx) (st : List (List Char)) (code : List Char),
       format_fence ctx st ("quote".toList) code = (format_quote code, st) ∧
       format_fence ctx st ("quoted".toList) code = (format_quote code, st)) ∧
    (∀ t : List Char, ∀ l ∈ pySplitChar '\n' (format_quote t),
       l = [] ∨ l.take 2 = ['>', ' ']) ∧
    format_quote ("first line\n\nsecond paragraph\n".toList) =
      "> first line\n\n> second paragraph".toList ∧
    run defaultCtx ["~~~quote".toList, "first line".toList, [],
        "second paragraph".toList, "~~~".toList] =
      ([[], "> first line".toList, [], "> second paragraph".toList, []], []) := by
  exact ⟨fun ctx st code =>
      ⟨format_fence_quote ctx st code, format_fence_quoted ctx st code⟩,
    format_quote_lines, by decide, by decide⟩

/-- Witness for C4: a line of the concrete quote markup starts with
`"> "`. -/
theorem c4_witness :
    "> first line".toList = [] ∨ ("> first line".toList).take 2 = ['>', ' '] :=
  c4_quote_markup.2.1 ("first line\n\nsecond paragraph\n".toList)
    ("> first line".toList) (by decide)

/-- C6 counterexample: with a character outside `[a-zA-Z0-9_+-]` in the tag
(`!`), the opening line fails to match entirely — the fence is NOT
recognized with an empty tag, and no region is matched at all. -/
theorem c6_counterexample :
    matchOpenAt ("~~~~\x7b.python!\x7d\nx = 1\n~~~~".toList) = none ∧
    fencedBlockSearch ("~~~~\x7b.python!\x7d\nx = 1\n~~~~".toList) = none := by
  exact ⟨by decide, by decide⟩

/-- C6 (amended): the language tag is taken bare or unwrapped from the
decoration and is restricted, case-sensitively, to `[a-zA-Z0-9_+-]` (every
character of a matched tag lies in that set); a character outside the set
in the annotation makes the whole opening line fail to match (rather than
degrading to an empty tag); decoration characters alone degrade to an
empty tag; and the concrete scenario `"~~~~\x7b.python\x7d\nx = 1\n~~~~"`
produces one code-block render with language `python` and body
`"x = 1\n"`. -/
theorem c6_tag_charset :
    (∀ (s f l rest : List Char), matchOpenAt s = some (f, l, rest) →
       l.all isLangChar = true) ∧
    matchOpenAt ("~~~\x7b\nz\n~~~".toList) =
      some ("~~~".toList, [], "z\n~~~".toList) ∧
    run defaultCtx ["~~~~\x7b.python\x7d".toList, "x = 1".toList, "~~~~".toList] =
      ([[], stashTok 0, []],
       [codeWrap (langTagAttr ("python".toList)) ("x = 1\n".toList)]) := by
  exact ⟨fun s f l rest h => (matchOpenAt_sound h).2.1, by decide, by decide⟩

/-- Witness for C6: the tag of the concrete match is drawn from the tag
character set. -/
theorem c6_witness : ("python".toList).all isLangChar = true :=
  c6_tag_charset.1 ("~~~~\x7b.python\x7d\nx = 1\n~~~~".toList) ("~~~~".toList)
    ("python".toList) ("x = 1\n~~~~".toList) (by decide)

lemma repairText_append_none (ctx : FenceCtx) (st : List (List Char))
    {text f1 f2 : List Char} (hf : fenceReSearch text = some (f1, f2))
    (hbp : endsWithBlankPair text = false)
    (hs2 : fencedBlockSearch (text ++ f1) = none) :
    repairText ctx st text = (text ++ f1, st) := by
  unfold repairText
  rw [hf]
  simp only [hbp, Bool.false_eq_true, if_false, hs2]

lemma repairText_append_found (ctx : FenceCtx) (st : List (List Char))
    {text f1 f2 : List Char} {m : FBMatch}
    (hf : fenceReSearch text = some (f1, f2))
    (hbp : endsWithBlankPair text = false)
    (hs2 : fencedBlockSearch (text ++ f1) = some m) :
    repairText ctx st text = process_fence ctx st m := by
  unfold repairText
  rw [hf]
  simp only [hbp, Bool.false_eq_true, if_false, hs2]

lemma repairText_blankpair_found (ctx : FenceCtx) (st : List (List Char))
    {text f1 f2 : List Char} {m : FBMatch}
    (hf : fenceReSearch text = some (f1, f2))
    (hbp : endsWithBlankPair text = true)
    (hs2 : fencedBlockSearch (text.take (text.length - 2) ++
      '\n' :: (f1 ++ ['\n', '\n'])) = some m) :
    repairText ctx st text = process_fence ctx st m := by
  unfold repairText
  rw [hf]
  simp only [hbp, if_true, hs2]

lemma endsWithBlankPair_pair (u : List Char) (a b : Char) :
    endsWithBlankPair (u ++ [a, b]) = decide ([a, b] = ['\n', '\n']) := by
  unfold endsWithBlankPair
  have hl : (u ++ [a, b]).length - 2 = u.length := by simp
  rw [hl, List.drop_left]

/-- C10 counterexample: the document `"~~~py\n~~~~\nfoo\n~"` ends with
neither a blank-line pair nor a newline and still contains unmatched
opening fences after the scan loop; the synthesized `~~~` is concatenated
onto the last line `~` forming `~~~~`, which completes a close at a line
start for the `~~~~` opening fence — so the final pass DOES find a region
and `run` returns a rendered code block, contrary to the claim. -/
theorem c10_counterexample :
    run defaultCtx ["~~~py".toList, "~~~~".toList, "foo".toList, "~".toList] =
      (["~~~py".toList, [], stashTok 0, []], [codeWrap [] ("foo\n".toList)]) := by
  decide

/-- C10 (amended): if after the scan loop the text is a dangling tilde
opening fence followed by fence-character-free content that does not end
with a newline, the synthesized marker is concatenated directly onto the
last line without a separating newline; since the close pattern requires a
newline immediately before the marker, the final pass finds no region and
`run` returns the dangling text with the raw marker characters appended,
storing nothing.  (When the last line itself contains fence characters the
appended marker can instead complete a closing fence for an earlier open
fence, as in the counterexample.) -/
theorem c10_no_trailing_newline (ctx : FenceCtx) (n : Nat) (core : List Char)
    (x : Char) (h3 : 3 ≤ n) (hx : isFenceChar x = false) (hxn : ¬ x = '\n')
    (hcore : ∀ y ∈ core, isFenceChar y = false) (fuel : Nat) :
    runText ctx fuel (List.replicate n '~' ++ '\n' :: (core ++ [x])) =
      ((List.replicate n '~' ++ '\n' :: (core ++ [x])) ++ List.replicate n '~',
        []) := by
  have htilde : isFenceChar '~' = true := by decide
  have hg : WfFence (List.replicate n '~') := ⟨'~', n, htilde, h3, rfl⟩
  have hNLrep : '\n' ∉ List.replicate n '~' := by
    intro hmem
    exact (by decide : ¬ ('\n' = '~')) (List.eq_of_mem_replicate hmem)
  have hbodynf : ∀ y ∈ core ++ [x], isFenceChar y = false := by
    intro y hy
    rcases List.mem_append.mp hy with h' | h'
    · exact hcore y h'
    · rw [List.mem_singleton.mp h']
      exact hx
  have hbodyne : core ++ [x] ≠ [] := by simp
  have hbodylast : (core ++ [x]).getLast? = some x := List.getLast?_concat core
  have hbodylastne : (core ++ [x]).getLast? ≠ some '\n' := by
    rw [hbodylast]
    intro hcontra
    exact hxn (by injection hcontra)
  have hA : fencedBlockSearch
      (List.replicate n '~' ++ '\n' :: (core ++ [x])) = none :=
    fencedBlockSearch_fence_none htilde h3
      (findCloseAux_none_nonfence hg (core ++ [x]) hbodynf true)
      (searchAux_none_nonfence (core ++ [x]) hbodynf true)
  have hC : fenceReSearch (List.replicate n '~' ++ '\n' :: (core ++ [x])) =
      some (List.replicate n '~', []) := fenceReSearch_fence htilde h3 _
  have hD : endsWithBlankPair
      (List.replicate n '~' ++ '\n' :: (core ++ [x])) = false := by
    apply endsWithBlankPair_false_of_last hxn
    rw [show List.replicate n '~' ++ '\n' :: (core ++ [x]) =
      (List.replicate n '~' ++ '\n' :: core) ++ [x] by simp]
    exact List.getLast?_concat _
  have hshape : (List.replicate n '~' ++ '\n' :: (core ++ [x])) ++
      List.replicate n '~' =
      List.replicate n '~' ++ '\n' :: ((core ++ [x]) ++ List.replicate n '~') := by
    simp
  have hE : fencedBlockSearch ((List.replicate n '~' ++ '\n' :: (core ++ [x])) ++
      List.replicate n '~') = none := by
    rw [hshape]
    exact fencedBlockSearch_fence_none htilde h3
      (findCloseAux_body_none hg _ hNLrep (core ++ [x]) hbodynf hbodyne
        hbodylastne true)
      (searchAux_body_append (core ++ [x]) hbodynf _ true hNLrep
        (fun habs => absurd habs hbodyne) (fun _ => hbodylastne))
  simp only [runText]
  rw [processLoop_none ctx fuel _ [] hA]
  exact repairText_append_none ctx [] hC hD hE

/-- Witness for C10 at the concrete document `"~~~\nfoo!"`. -/
theorem c10_witness :
    runText defaultCtx 9 (List.replicate 3 '~' ++ '\n' :: ("foo".toList ++ ['!'])) =
      ((List.replicate 3 '~' ++ '\n' :: ("foo".toList ++ ['!'])) ++
        List.replicate 3 '~', []) :=
  c10_no_trailing_newline defaultCtx 3 ("foo".toList) '!' (by omega) (by decide)
    (by decide) (by decide) 9

lemma process_fence_code (tok : Nat → List Char) (f body post : List Char) :
    process_fence ⟨tok, none⟩ [] (FBMatch.mk [] f [] body post) =
      ('\n' :: (tok 0 ++ '\n' :: post), [codeWrap [] (escapeHtml body)]) := by
  unfold process_fence
  rw [format_fence_not_quote (by decide :
    ¬ (([] : List Char) = "quote".toList ∨ ([] : List Char) = "quoted".toList))]
  simp [format_code]

/-- C3 counterexample: the document `"~~~\nhello"` ends with an opening
fence with no matching close below it, yet `run` produces NO rendered code
block at all: the synthesized marker is appended without a newline and the
final pass matches nothing, so the stash stays empty and the raw markers
appear in the output. -/
theorem c3_counterexample :
    run defaultCtx ["~~~".toList, "hello".toList] =
      (["~~~".toList, "hello~~~".toList], []) := by
  decide

/-- C3 (amended): for a document that is a tilde opening fence line
followed by fence-character-free content ending in a newline, the repair
synthesizes a closing fence with the same exact marker string — appended at
the very end when the text does not end with a blank-line pair, inserted
just before the pair when it does — performs exactly one more
match/replace pass, and the output contains exactly one rendered code
block whose body is everything after the opening fence line to the end of
the input (excluding a trailing blank-line pair when one is present). -/
theorem c3_dangling_repair (tok : Nat → List Char) (n : Nat) (core : List Char)
    (x : Char) (h3 : 3 ≤ n) (hx : isFenceChar x = false) (hxn : ¬ x = '\n')
    (hcore : ∀ y ∈ core, isFenceChar y = false) (fuel : Nat) :
    runText ⟨tok, none⟩ fuel
        (List.replicate n '~' ++ '\n' :: (core ++ [x, '\n'])) =
      ('\n' :: (tok 0 ++ ['\n']),
        [codeWrap [] (escapeHtml (core ++ [x, '\n']))]) ∧
    runText ⟨tok, none⟩ fuel
        (List.replicate n '~' ++ '\n' :: (core ++ [x, '\n', '\n'])) =
      ('\n' :: (tok 0 ++ ['\n', '\n', '\n']),
        [codeWrap [] (escapeHtml (core ++ [x, '\n']))]) := by
  have htilde : isFenceChar '~' = true := by decide
  have hg : WfFence (List.replicate n '~') := ⟨'~', n, htilde, h3, rfl⟩
  have hnlnf : isFenceChar '\n' = false := by decide
  have hbody1nf : ∀ y ∈ core ++ [x, '\n'], isFenceChar y = false := by
    intro y hy
    rcases List.mem_append.mp hy with h' | h'
    · exact hcore y h'
    · rcases List.mem_cons.mp h' with h'' | h''
      · rw [h'']; exact hx
      · rw [List.mem_singleton.mp h'']; exact hnlnf
  have hlast1 : (core ++ [x, '\n']).getLast? = some '\n' := by
    rw [show core ++ [x, '\n'] = (core ++ [x]) ++ ['\n'] by simp]
    exact List.getLast?_concat _
  have hclose1 : findCloseAux (List.replicate n '~')
      ((core ++ [x, '\n']) ++ List.replicate n '~') true =
      some (core ++ [x, '\n'], []) := by
    have h := findCloseAux_found hg [] (Or.inl rfl) (core ++ [x, '\n']) true
      hbody1nf (Or.inr hlast1)
    simpa using h
  constructor
  · have hA : fencedBlockSearch
        (List.replicate n '~' ++ '\n' :: (core ++ [x, '\n'])) = none :=
      fencedBlockSearch_fence_none htilde h3
        (findCloseAux_none_nonfence hg _ hbody1nf true)
        (searchAux_none_nonfence _ hbody1nf true)
    have hC : fenceReSearch (List.replicate n '~' ++ '\n' :: (core ++ [x, '\n'])) =
        some (List.replicate n '~', []) := fenceReSearch_fence htilde h3 _
    have hD : endsWithBlankPair
        (List.replicate n '~' ++ '\n' :: (core ++ [x, '\n'])) = false := by
      rw [show List.replicate n '~' ++ '\n' :: (core ++ [x, '\n']) =
        (List.replicate n '~' ++ '\n' :: core) ++ [x, '\n'] by simp]
      rw [endsWithBlankPair_pair]
      simp [hxn]
    have hE : fencedBlockSearch
        ((List.replicate n '~' ++ '\n' :: (core ++ [x, '\n'])) ++
          List.replicate n '~') =
        some (FBMatch.mk [] (List.replicate n '~') [] (core ++ [x, '\n']) []) := by
      rw [show (List.replicate n '~' ++ '\n' :: (core ++ [x, '\n'])) ++
        List.replicate n '~' =
        List.replicate n '~' ++ '\n' :: ((core ++ [x, '\n']) ++
          List.replicate n '~') by simp]
      exact fencedBlockSearch_fence_found htilde h3 hclose1
    simp only [runText]
    rw [processLoop_none _ fuel _ [] hA]
    have hrepair := repairText_append_found (FenceCtx.mk tok none) [] hC hD hE
    rw [hrepair]
    exact process_fence_code tok _ _ _
  · have hbody2nf : ∀ y ∈ core ++ [x, '\n', '\n'], isFenceChar y = false := by
      intro y hy
      rcases List.mem_append.mp hy with h' | h'
      · exact hcore y h'
      · rcases List.mem_cons.mp h' with h'' | h''
        · rw [h'']; exact hx
        · rcases List.mem_cons.mp h'' with h3' | h3'
          · rw [h3']; exact hnlnf
          · rw [List.mem_singleton.mp h3']; exact hnlnf
    have hA2 : fencedBlockSearch
        (List.replicate n '~' ++ '\n' :: (core ++ [x, '\n', '\n'])) = none :=
      fencedBlockSearch_fence_none htilde h3
        (findCloseAux_none_nonfence hg _ hbody2nf true)
        (searchAux_none_nonfence _ hbody2nf true)
    have hC2 : fenceReSearch
        (List.replicate n '~' ++ '\n' :: (core ++ [x, '\n', '\n'])) =
        some (List.replicate n '~', []) := fenceReSearch_fence htilde h3 _
    have hshape2 : List.replicate n '~' ++ '\n' :: (core ++ [x, '\n', '\n']) =
        (List.replicate n '~' ++ '\n' :: (core ++ [x])) ++ ['\n', '\n'] := by
      simp
    have hbp2 : endsWithBlankPair
        (List.replicate n '~' ++ '\n' :: (core ++ [x, '\n', '\n'])) = true := by
      rw [hshape2]
      exact endsWithBlankPair_append_pair _
    have htake2 : (List.replicate n '~' ++ '\n' :: (core ++ [x, '\n', '\n'])).take
        ((List.replicate n '~' ++ '\n' :: (core ++ [x, '\n', '\n'])).length - 2) =
        List.replicate n '~' ++ '\n' :: (core ++ [x]) := by
      rw [hshape2]
      exact take_append_pair _
    have hclose2 : findCloseAux (List.replicate n '~')
        ((core ++ [x, '\n']) ++ (List.replicate n '~' ++ ['\n', '\n'])) true =
        some (core ++ [x, '\n'], ['\n', '\n']) := by
      have h := findCloseAux_found hg ('\n' :: ['\n']) (Or.inr ⟨['\n'], rfl⟩)
        (core ++ [x, '\n']) true hbody1nf (Or.inr hlast1)
      simpa [List.append_assoc] using h
    have hE2 : fencedBlockSearch
        ((List.replicate n '~' ++ '\n' :: (core ++ [x, '\n', '\n'])).take
          ((List.replicate n '~' ++ '\n' ::
            (core ++ [x, '\n', '\n'])).length - 2) ++
          '\n' :: (List.replicate n '~' ++ ['\n', '\n'])) =
        some (FBMatch.mk [] (List.replicate n '~') [] (core ++ [x, '\n'])
          ['\n', '\n']) := by
      rw [htake2]
      rw [show (List.replicate n '~' ++ '\n' :: (core ++ [x])) ++
        '\n' :: (List.replicate n '~' ++ ['\n', '\n']) =
        List.replicate n '~' ++ '\n' :: ((core ++ [x, '\n']) ++
          (List.replicate n '~' ++ ['\n', '\n'])) by simp]
      exact fencedBlockSearch_fence_found htilde h3 hclose2
    simp only [runText]
    rw [processLoop_none _ fuel _ [] hA2]
    have hrepair := repairText_blankpair_found (FenceCtx.mk tok none) [] hC2 hbp2 hE2
    rw [hrepair]
    exact process_fence_code tok _ _ _

/-- Witness for C3 at the concrete document `"~~~\nhello\n"`. -/
theorem c3_witness :
    runText ⟨stashTok, none⟩ 42
        (List.replicate 3 '~' ++ '\n' :: ("hell".toList ++ ['o', '\n'])) =
      ('\n' :: (stashTok 0 ++ ['\n']),
        [codeWrap [] (escapeHtml ("hell".toList ++ ['o', '\n']))]) :=
  (c3_dangling_repair stashTok 3 ("hell".toList) 'o' (by omega) (by decide)
    (by decide) (by decide) 42).1
